import Mathlib

/-!
Shallow embedding of the TF-RMM git-submodule-dependency-submission action
(`src/index.ts` and its helper module).

Modelling conventions:
* JavaScript strings are modelled as lists of characters (`JStr`).
* `String.prototype.split(sep)` with the single-character separators used by
  the source (`'/'`, `'.'`, `'"'`, `'='`, `'\n'`) is `jsplitc`.
* `String.prototype.includes(pat)` is `jincludes`.
* `String.prototype.trim()` is `jtrim`.
* Indexing a JS array past its end yields `undefined`; calling a method on
  that value throws a `TypeError`.  Fallible code is therefore rendered in
  `Except DepError`, with `DepError.undefinedAccess` standing for that
  runtime `TypeError` and the other constructors for the `throw new Error`
  sites of the source.
* The filesystem (`fs.existsSync` / `fs.readFileSync`) is an explicit map
  from paths to file contents, and the two `git` subprocess invocations of
  `processSubmoduleTag` are an oracle giving, per working-tree path, the
  exec results of `git describe --tags` and `git rev-parse --short HEAD`.
-/

set_option maxHeartbeats 1000000

/-- JavaScript strings, modelled as lists of characters. -/
abbrev JStr := List Char

/-- JS `String.prototype.split(c)` for a single-character separator:
splits on every occurrence of `c`; the result is never the empty list. -/
def jsplitc (c : Char) : JStr → List JStr
  | [] => [[]]
  | a :: rest =>
    if a = c then [] :: jsplitc c rest
    else
      match jsplitc c rest with
      | [] => [[a]]
      | s :: ss => (a :: s) :: ss

/-- Does `s` start with `pat`?  (Helper for `jincludes`.) -/
def jstartsWith : JStr → JStr → Bool
  | _, [] => true
  | [], _ :: _ => false
  | a :: as, b :: bs => a == b && jstartsWith as bs

/-- JS `String.prototype.includes(pat)`: does `pat` occur as a contiguous
substring of `s`? -/
def jincludes : JStr → JStr → Bool
  | [], pat => jstartsWith [] pat
  | x :: rest, pat => jstartsWith (x :: rest) pat || jincludes rest pat

/-- JS `String.prototype.trim()`: strip whitespace from both ends. -/
def jtrim (s : JStr) : JStr :=
  ((s.dropWhile Char.isWhitespace).reverse.dropWhile Char.isWhitespace).reverse

/-- The `Submodule` record type of the helper module: section name,
working-tree path, upstream url and (once resolved) tag.  (Named
`GitSubmodule` here because Mathlib already uses `Submodule`.) -/
structure GitSubmodule where
  name : JStr
  path : JStr
  url : JStr
  tag : JStr
deriving DecidableEq, Repr, Inhabited

/-- The distinct failure exits of the core (each a `throw` in the source,
plus `undefinedAccess` for the JS `TypeError` raised by calling a method on
`undefined`). -/
inductive DepError where
  /-- `parseSubmoduleManifest`: path not a `.gitmodules` file or absent. -/
  | manifestNotFound
  /-- `processSubmoduleTag`: both git commands failed. -/
  | gitFailed
  /-- `processSubmodule`: some record field is empty. -/
  | incompleteSubmodule
  /-- `processSubmodule`: `url.split('/')[4]` is `undefined` and `.split`
  on it throws a `TypeError`. -/
  | undefinedAccess
  /-- `processSubmodule`: the hosting domain is not `github.com`. -/
  | unsupportedHost
  /-- `processSubmodule`: the `new PackageURL(...)` constructor rejected a
  missing required field (packageurl-js throws when `type` or `name` is
  falsy). -/
  | invalidPurl
  /-- `main`: a generated PURL is missing from the module cache. -/
  | assertionFailed
deriving DecidableEq, Repr

/-- The PackageURL (PURL) produced by `processSubmodule`
(`new PackageURL(type, namespace, name, version, null, null)`).
`nspace` stands for the `namespace` field (a Lean keyword). -/
structure PackageURL where
  type : JStr
  nspace : JStr
  name : JStr
  version : JStr
deriving DecidableEq, Repr

/-- The `new PackageURL(type, namespace, name, version, null, null)` call
of the packageurl-js library: the constructor validates its arguments and
throws when a required field — `type` or `name` — is empty (falsy);
`namespace` and `version` are optional. -/
def mkPackageURL (type nspace name version : JStr) : Except DepError PackageURL :=
  if type = [] ∨ name = [] then
    .error .invalidPurl
  else
    .ok ⟨type, nspace, name, version⟩

/-- Result of one `exec.getExecOutput` subprocess invocation. -/
structure ExecOutput where
  exitCode : Int
  stdout : JStr
  stderr : JStr
deriving DecidableEq, Repr

/-- The single supported hosting domain. -/
def githubHost : JStr := "github.com".toList

/-- `processSubmoduleTag`, with the two subprocess results passed in:
`tagRes` is the outcome of `git describe --tags` and `hashRes` the outcome
of `git rev-parse --short HEAD`, both run in the (normalized) module path.
Mirrors the source: return `tag.stdout` on success; on non-zero exit fall
back to the hash invocation; if that also exits non-zero, throw. -/
def processSubmoduleTag (tagRes hashRes : ExecOutput) : Except DepError JStr :=
  if tagRes.exitCode ≠ 0 then
    if hashRes.exitCode ≠ 0 then
      .error .gitFailed
    else
      .ok hashRes.stdout
  else
    .ok tagRes.stdout

/-- `processSubmodule`: check the four fields are non-empty, then derive
`type = url.split('/')[2]`, `namespace = url.split('/')[3]`,
`name = url.split('/')[4].split('.')[0]`, reject non-`github.com` types and
build the PURL with `type.split('.')[0]` via the validating packageurl-js
constructor (`mkPackageURL`), which runs only after the host check.

In the source the `name` line runs before the host check; indexing past the
end of the split array yields `undefined` (no throw), but `.split` on that
`undefined` throws.  Hence the match on `segs[4]?` comes first: it is the
only sub-expression of lines 77–79 that can throw, and it throws before the
`type !== 'github.com'` test is reached. -/
def processSubmodule (s : GitSubmodule) : Except DepError PackageURL :=
  if s.name = [] ∨ s.path = [] ∨ s.url = [] ∨ s.tag = [] then
    .error .incompleteSubmodule
  else
    let segs := jsplitc '/' s.url
    match segs[4]? with
    | none => .error .undefinedAccess
    | some seg4 =>
      let type := (segs[2]?).getD []
      let nspace := (segs[3]?).getD []
      let name := (jsplitc '.' seg4).getD 0 []
      if type ≠ githubHost then
        .error .unsupportedHost
      else
        mkPackageURL ((jsplitc '.' type).getD 0 []) nspace name s.tag

deriving instance DecidableEq for Except

/-- `processSubmoduleUrls`: generate a PURL per submodule, in order; a
thrown error aborts the whole loop. -/
def processSubmoduleUrls (subs : List GitSubmodule) : Except DepError (List PackageURL) :=
  subs.mapM processSubmodule

/-- The `PackageCache` of the dependency-submission toolkit, as used by the
core: a collection of packages keyed by their PURL.  (The toolkit keys its
record map by `packageURL.toString()`; equal PURLs give equal keys, which is
all the core relies on, so the model keys by the PURL itself.)  A package
carries no data beyond its PURL here, since the core only ever reads
`dep.name()`, which is the PURL's `name`. -/
abbrev PackageCache := List PackageURL

/-- Toolkit `PackageCache.lookupPackage`: the entry for this PURL, if any. -/
def lookupPackage (cache : PackageCache) (p : PackageURL) : Option PackageURL :=
  cache.find? (fun q => decide (q = p))

/-- Toolkit `PackageCache.package`: return the existing entry for this PURL
if present, otherwise insert a fresh one. -/
def cachePackage (cache : PackageCache) (p : PackageURL) : PackageCache :=
  match lookupPackage cache p with
  | some _ => cache
  | none => cache ++ [p]

/-- `processSubmoduleCache`: fold every submodule's PURL into a fresh
cache; a thrown error aborts the whole loop. -/
def processSubmoduleCache (subs : List GitSubmodule) : Except DepError PackageCache :=
  subs.foldlM (fun cache s => (processSubmodule s).map (cachePackage cache)) []

/-- A submodule record with every field still empty (the accumulator value
the parser starts from and resets to). -/
def emptySubmodule : GitSubmodule := ⟨[], [], [], []⟩

/-- The three line patterns the manifest scanner looks for. -/
def submodulePat : JStr := "submodule \"".toList

/-- `path =` assignment pattern. -/
def pathPat : JStr := "path =".toList

/-- `url =` assignment pattern. -/
def urlPat : JStr := "url =".toList

/-- The field-update step of the manifest scanning loop (lines 158–168 of
the helper module): a line can set the first still-empty matching field of
the accumulator record (`name = line.split('"')[1]`,
`path/url = line.split('=')[1].trim()`; the `includes` guard guarantees the
separator occurs in the line, so index 1 exists and the `getD` default is
never used). -/
def scanField (sub : GitSubmodule) (line : JStr) : GitSubmodule :=
  if sub.name = [] ∧ jincludes line submodulePat = true then
    { sub with name := (jsplitc '"' line).getD 1 [] }
  else if sub.path = [] ∧ jincludes line pathPat = true then
    { sub with path := jtrim ((jsplitc '=' line).getD 1 []) }
  else if sub.url = [] ∧ jincludes line urlPat = true then
    { sub with url := jtrim ((jsplitc '=' line).getD 1 []) }
  else sub

/-- One iteration of the scanning loop, continued: after the field update
of `scanField`, a record with `name`, `path` and `url` all non-empty is
pushed and the accumulator is reset. -/
def parseLine (st : List GitSubmodule × GitSubmodule) (line : JStr) :
    List GitSubmodule × GitSubmodule :=
  let sub := scanField st.2 line
  if sub.name ≠ [] ∧ sub.path ≠ [] ∧ sub.url ≠ [] then
    (st.1 ++ [sub], emptySubmodule)
  else
    (st.1, sub)

/-- The pure scanning phase of `parseSubmoduleManifest`: fold `parseLine`
over the manifest's lines; a trailing partially-filled accumulator is
discarded. -/
def parseManifestLines (lines : List JStr) : List GitSubmodule :=
  (lines.foldl parseLine ([], emptySubmodule)).1

/-- Node `path.posix`'s segment normalization (the `normalizeString`
helper): drop empty and `.` segments; on `..` pop the previous segment, or
keep the `..` when there is nothing to pop and the path is relative.
`acc` holds the kept segments in reverse. -/
def normSegs (allowAboveRoot : Bool) (acc : List JStr) : List JStr → List JStr
  | [] => acc.reverse
  | seg :: rest =>
    if seg = [] ∨ seg = ['.'] then
      normSegs allowAboveRoot acc rest
    else if seg = ['.', '.'] then
      match acc with
      | [] =>
        if allowAboveRoot then normSegs allowAboveRoot [seg] rest
        else normSegs allowAboveRoot [] rest
      | top :: acc' =>
        if top = ['.', '.'] then normSegs allowAboveRoot (seg :: acc) rest
        else normSegs allowAboveRoot acc' rest
    else
      normSegs allowAboveRoot (seg :: acc) rest

/-- Join path segments with `/`. -/
def joinSegs : List JStr → JStr
  | [] => []
  | [s] => s
  | s :: t :: rest => s ++ '/' :: joinSegs (t :: rest)

/-- Node `path.normalize` (posix; named `pathNormalize` since Mathlib
already uses `normalize`): resolve `.`/`..`, collapse repeated
separators, preserve a leading `/` (absolute) and a trailing `/`. -/
def pathNormalize (p : JStr) : JStr :=
  if p = [] then ['.']
  else
    let isAbs := p.headD ' ' = '/'
    let trailingSep := p.getLast? = some '/'
    let body := joinSegs (normSegs (!isAbs) [] (jsplitc '/' p))
    if body = [] then
      if isAbs then ['/'] else if trailingSep then ['.', '/'] else ['.']
    else
      let body := if trailingSep then body ++ ['/'] else body
      if isAbs then '/' :: body else body

/-- Node `path.basename` (posix, no extension argument): the last path
component, ignoring trailing separators. -/
def basename (p : JStr) : JStr :=
  let t := (p.reverse.dropWhile (fun c => c = '/')).reverse
  if t = [] then [] else (jsplitc '/' t).getLastD []

/-- The required manifest file name. -/
def gitmodulesName : JStr := ".gitmodules".toList

/-- The tag write-back loop of `parseSubmoduleManifest` (lines 190–192):
`tags.forEach((tag, index) => submodules[index].tag = tag)` — each resolved
tag is stored into the record at the *same index*.  (An index beyond the
record list would be a no-op; it cannot occur, as the tag list is produced
by mapping over the records.) -/
def assignTags (subs : List GitSubmodule) (tags : List JStr) : List GitSubmodule :=
  tags.enum.foldl
    (fun acc it =>
      match acc[it.1]? with
      | some s => acc.set it.1 { s with tag := it.2 }
      | none => acc)
    subs

/-- The tag resolution phase of `parseSubmoduleManifest` (lines 185–187):
`Promise.all(submodules.map(s => processSubmoduleTag(s.path)))`.  The
subprocess outcomes are supplied by the oracle `git`, giving per
(normalized) path the results of `git describe --tags` and
`git rev-parse --short HEAD`.  `Promise.all` yields the results in input
order regardless of completion order, which is what an in-order `mapM`
denotes; any rejection aborts the whole run. -/
def resolveAllTags (git : JStr → ExecOutput × ExecOutput)
    (subs : List GitSubmodule) : Except DepError (List JStr) :=
  subs.mapM (fun s =>
    processSubmoduleTag (git (pathNormalize s.path)).1 (git (pathNormalize s.path)).2)

/-- `parseSubmoduleManifest`: reject a path that is not a `.gitmodules`
file or does not exist, then scan the file's lines into records, resolve
every record's tag and write the tags back by index.  `fs` maps an existing
path to its contents; the guarded `getD` models `readFileSync` succeeding
exactly when `existsSync` held. -/
def parseSubmoduleManifest (git : JStr → ExecOutput × ExecOutput)
    (fs : JStr → Option JStr) (manifest : JStr) :
    Except DepError (List GitSubmodule) :=
  let manifestPath := pathNormalize manifest
  if basename manifestPath ≠ gitmodulesName ∨ fs manifestPath = none then
    .error .manifestNotFound
  else
    let content := (fs manifestPath).getD []
    let subs := parseManifestLines (jsplitc '\n' content)
    (resolveAllTags git subs).map (assignTags subs)

/-- The dependency scope classification of `index.ts`. -/
inductive DependencyScope where
  | runtime
  | development
deriving DecidableEq, Repr

/-- The scope decision of `main` (lines 44–48): development when
`developmentDeps.includes(dep.name())`, runtime otherwise — a substring
test of the dependency name against the raw `development-deps` input. -/
def scopeFor (developmentDeps depName : JStr) : DependencyScope :=
  if jincludes developmentDeps depName = true then .development else .runtime

/-- The dependency-assembly loop of `main` (lines 29–52), from the already
parsed submodule list: generate the PURLs and the module cache from the
same list, then for each PURL look it up in the cache — an absent result is
the `assertion failed` throw — and pair it with its scope. -/
def mainScopes (developmentDeps : JStr) (subs : List GitSubmodule) :
    Except DepError (List (PackageURL × DependencyScope)) := do
  let purls ← processSubmoduleUrls subs
  let cache ← processSubmoduleCache subs
  purls.mapM (fun purl =>
    match lookupPackage cache purl with
    | none => .error .assertionFailed
    | some dep => pure (purl, scopeFor developmentDeps dep.name))

/-- A well-formed manifest section, for stating the parser's functional
correctness: a quoted section name and one `path =` and one `url =`
assignment, rendered as the three manifest lines of `sectionLines`. -/
structure ManifestSection where
  name : JStr
  path : JStr
  url : JStr
deriving DecidableEq, Repr

/-- Header line `[submodule "<name>"]`. -/
def headerLine (name : JStr) : JStr :=
  "[submodule \"".toList ++ name ++ "\"]".toList

/-- Assignment line `\tpath = <p>`. -/
def pathLine (p : JStr) : JStr := "\tpath = ".toList ++ p

/-- Assignment line `\turl = <u>`. -/
def urlLine (u : JStr) : JStr := "\turl = ".toList ++ u

/-- The three lines of a well-formed manifest section. -/
def sectionLines (sec : ManifestSection) : List JStr :=
  [headerLine sec.name, pathLine sec.path, urlLine sec.url]

/-- Well-formedness of a section: non-empty name without a quote character
(so the quoted header parses back to the name), values free of `=` (so the
assignment text after the first `=` is the whole value) and non-empty after
trimming. -/
def WellFormedSection (sec : ManifestSection) : Prop :=
  sec.name ≠ [] ∧ '"' ∉ sec.name ∧
  '=' ∉ sec.path ∧ jtrim sec.path ≠ [] ∧
  '=' ∉ sec.url ∧ jtrim sec.url ≠ []

instance (sec : ManifestSection) : Decidable (WellFormedSection sec) := by
  unfold WellFormedSection
  infer_instance

/-- The record a well-formed section should parse to. -/
def sectionRecord (sec : ManifestSection) : GitSubmodule :=
  ⟨sec.name, jtrim sec.path, jtrim sec.url, []⟩

example : processSubmodule
    ⟨"dep-a".toList, "libs/dep-a".toList,
     "https://github.com/org/dep-a.git".toList, "v1.2.3".toList⟩
    = .ok ⟨"github".toList, "org".toList, "dep-a".toList, "v1.2.3".toList⟩ := by
  decide

example : processSubmodule
    ⟨"m".toList, "p".toList, "https://gitlab.com/org/x.git".toList, "v1".toList⟩
    = .error .unsupportedHost := by
  decide

example : processSubmodule
    ⟨"m".toList, "p".toList, "https://gitlab.com".toList, "v1".toList⟩
    = .error .undefinedAccess := by
  decide

/-! ### Lemmas about the string operations -/

theorem jstartsWith_append (pat b : JStr) : jstartsWith (pat ++ b) pat = true := by
  induction pat with
  | nil => simp [jstartsWith]
  | cons a as ih => simp [jstartsWith, ih]

theorem jincludes_of_startsWith {s pat : JStr} (h : jstartsWith s pat = true) :
    jincludes s pat = true := by
  cases s with
  | nil => simpa [jincludes] using h
  | cons x rest => simp [jincludes, h]

theorem jincludes_of_append (a pat b : JStr) :
    jincludes (a ++ (pat ++ b)) pat = true := by
  induction a with
  | nil =>
    rw [List.nil_append]
    exact jincludes_of_startsWith (jstartsWith_append pat b)
  | cons x xs ih =>
    rw [List.cons_append, jincludes, ih]
    simp

theorem jsplitc_of_not_mem {c : Char} {s : JStr} (h : c ∉ s) : jsplitc c s = [s] := by
  induction s with
  | nil => rfl
  | cons a rest ih =>
    have hac : ¬a = c := fun e => h (e ▸ List.mem_cons_self a rest)
    have hcr : c ∉ rest := fun m => h (List.mem_cons_of_mem _ m)
    rw [jsplitc, if_neg hac, ih hcr]

theorem jsplitc_append {c : Char} {a : JStr} (b : JStr) (h : c ∉ a) :
    jsplitc c (a ++ c :: b) = a :: jsplitc c b := by
  induction a with
  | nil => simp [jsplitc]
  | cons x xs ih =>
    have hxc : ¬x = c := fun e => h (e ▸ List.mem_cons_self x xs)
    have hcx : c ∉ xs := fun m => h (List.mem_cons_of_mem _ m)
    rw [List.cons_append, jsplitc, if_neg hxc, ih hcx]

theorem jtrim_cons_space (s : JStr) : jtrim (' ' :: s) = jtrim s := by
  have h : (' ' : Char).isWhitespace = true := by decide
  simp [jtrim, List.dropWhile_cons, h]

/-! ### Lemmas about the manifest scanner -/

theorem parseLine_fst (st : List GitSubmodule × GitSubmodule) (line : JStr) :
    (parseLine st line).1 = st.1 ∨
      ∃ sub : GitSubmodule, (parseLine st line).1 = st.1 ++ [sub] ∧
        sub.name ≠ [] ∧ sub.path ≠ [] ∧ sub.url ≠ [] := by
  simp only [parseLine]
  split
  next hc => exact Or.inr ⟨_, rfl, hc.1, hc.2.1, hc.2.2⟩
  next => exact Or.inl rfl

theorem parseFold_complete (ls : List JStr) :
    ∀ st : List GitSubmodule × GitSubmodule,
      (∀ r ∈ st.1, r.name ≠ [] ∧ r.path ≠ [] ∧ r.url ≠ []) →
      ∀ r ∈ (ls.foldl parseLine st).1, r.name ≠ [] ∧ r.path ≠ [] ∧ r.url ≠ [] := by
  induction ls with
  | nil => intro st h; exact h
  | cons l ls ih =>
    intro st h
    rw [List.foldl_cons]
    apply ih
    rcases parseLine_fst st l with heq | ⟨sub, heq, h1, h2, h3⟩
    · rw [heq]; exact h
    · rw [heq]
      intro r hr
      rcases List.mem_append.mp hr with hr | hr
      · exact h r hr
      · have := List.mem_singleton.mp hr
        subst this
        exact ⟨h1, h2, h3⟩

/-! ### Claim theorems (first group) -/

/-- C2 (amended): the scanner never emits an incomplete record — every
record produced by `parseSubmoduleManifest`'s scanning phase has non-empty
`name`, `path` and `url`.  (The original claim's stronger reading — that a
section missing `path =` or `url =` is dropped *entirely* — is refuted by
`spec_c2_counterexample`: the fields such a section did capture can be
completed by assignment lines of later sections, yielding a merged
record.) -/
theorem spec_c2 : ∀ lines : List JStr, ∀ r ∈ parseManifestLines lines,
    r.name ≠ [] ∧ r.path ≠ [] ∧ r.url ≠ [] := by
  intro lines
  exact parseFold_complete lines ([], emptySubmodule) (by intro r hr; cases hr)

/-- C2 witness: the completeness guarantee applied to the concrete manifest
of the counterexample and the one record it produces. -/
theorem spec_c2_witness :
    (GitSubmodule.mk "a".toList "pa".toList "ub".toList []).name ≠ [] ∧
    (GitSubmodule.mk "a".toList "pa".toList "ub".toList []).path ≠ [] ∧
    (GitSubmodule.mk "a".toList "pa".toList "ub".toList []).url ≠ [] :=
  spec_c2
    ["[submodule \"a\"]".toList, "\tpath = pa".toList,
     "[submodule \"b\"]".toList, "\turl = ub".toList]
    (GitSubmodule.mk "a".toList "pa".toList "ub".toList []) (by decide)

/-- C2 counterexample: section `a` has a name and a `path =` line but no
`url =` line, yet it is not dropped: the scanner completes it with the
`url =` line of section `b` and emits a single merged record carrying
section `a`'s name — contradicting "the section is dropped entirely from
the output and no incomplete or partially-filled record is emitted in its
place". -/
theorem spec_c2_counterexample :
    parseManifestLines
        ["[submodule \"a\"]".toList, "\tpath = pa".toList,
         "[submodule \"b\"]".toList, "\turl = ub".toList] =
      [⟨"a".toList, "pa".toList, "ub".toList, []⟩] := by
  decide

/-- C9: a complete record (all four fields non-empty) whose url has fewer
than five `/`-separated segments makes `processSubmodule` fail with the
undefined-access `TypeError` from `url.split('/')[4].split(...)` — not with
`IncompleteSubmodule`, and not with `UnsupportedHost` even though the
segment at the hosting-domain position (`gitlab.com` here) is not
`github.com`, because the crash happens before the hosting-domain check. -/
theorem spec_c9 :
    ("m".toList ≠ ([] : JStr) ∧ "p".toList ≠ ([] : JStr) ∧
      "https://gitlab.com".toList ≠ ([] : JStr) ∧ "v1".toList ≠ ([] : JStr)) ∧
    (jsplitc '/' "https://gitlab.com".toList).length < 5 ∧
    (jsplitc '/' "https://gitlab.com".toList).getD 2 [] ≠ githubHost ∧
    processSubmodule ⟨"m".toList, "p".toList, "https://gitlab.com".toList, "v1".toList⟩ =
      .error .undefinedAccess := by
  decide

/-- Any failure of `processSubmoduleTag` is the fatal git failure. -/
theorem processSubmoduleTag_error {t u : ExecOutput} {e : DepError}
    (he : processSubmoduleTag t u = .error e) : e = .gitFailed := by
  by_cases h1 : t.exitCode = 0
  · simp [processSubmoduleTag, h1] at he
  · by_cases h2 : u.exitCode = 0
    · simp [processSubmoduleTag, h1, h2] at he
    · simp [processSubmoduleTag, h1, h2] at he
      exact he.symm

/-- C4: `processSubmoduleTag` returns the tag command's stdout verbatim
when that command exits 0; on non-zero exit it returns the hash command's
stdout; when both exit non-zero it throws.  Moreover the throw is not
recovered per item: if any submodule's two git invocations both fail, the
whole tag-resolution phase fails. -/
theorem spec_c4 :
    (∀ tagRes hashRes : ExecOutput,
      (tagRes.exitCode = 0 → processSubmoduleTag tagRes hashRes = .ok tagRes.stdout) ∧
      (tagRes.exitCode ≠ 0 → hashRes.exitCode = 0 →
          processSubmoduleTag tagRes hashRes = .ok hashRes.stdout) ∧
      (tagRes.exitCode ≠ 0 → hashRes.exitCode ≠ 0 →
          processSubmoduleTag tagRes hashRes = .error .gitFailed)) ∧
    (∀ (git : JStr → ExecOutput × ExecOutput) (subs : List GitSubmodule),
      (∃ s ∈ subs, (git (pathNormalize s.path)).1.exitCode ≠ 0 ∧
          (git (pathNormalize s.path)).2.exitCode ≠ 0) →
      resolveAllTags git subs = .error .gitFailed) := by
  constructor
  · intro tagRes hashRes
    exact ⟨fun h1 => by simp [processSubmoduleTag, h1],
           fun h1 h2 => by simp [processSubmoduleTag, h1, h2],
           fun h1 h2 => by simp [processSubmoduleTag, h1, h2]⟩
  · intro git subs
    induction subs with
    | nil => rintro ⟨s, hs, -⟩; cases hs
    | cons a as ih =>
      rintro ⟨s, hs, hf1, hf2⟩
      rw [resolveAllTags, List.mapM_cons]
      rcases List.mem_cons.mp hs with rfl | hmem
      · have hfail : processSubmoduleTag (git (pathNormalize s.path)).1
            (git (pathNormalize s.path)).2 = .error .gitFailed := by
          simp [processSubmoduleTag, hf1, hf2]
        rw [hfail]
        rfl
      · cases hh : processSubmoduleTag (git (pathNormalize a.path)).1
            (git (pathNormalize a.path)).2 with
        | error e =>
          have he : e = .gitFailed := processSubmoduleTag_error hh
          subst he
          rfl
        | ok t =>
          have has : resolveAllTags git as = .error .gitFailed :=
            ih ⟨s, hmem, hf1, hf2⟩
          rw [resolveAllTags] at has
          rw [has]
          rfl

/-- C4 witness: the three outcomes at concrete exec results, and the fatal
abort of a run containing a submodule whose two git invocations fail. -/
theorem spec_c4_witness :
    processSubmoduleTag ⟨0, "v1.2.3".toList, []⟩ ⟨1, [], []⟩ = .ok "v1.2.3".toList ∧
    processSubmoduleTag ⟨1, [], []⟩ ⟨0, "abc1234".toList, []⟩ = .ok "abc1234".toList ∧
    processSubmoduleTag ⟨1, [], []⟩ ⟨1, [], []⟩ = .error .gitFailed ∧
    resolveAllTags (fun _ => (⟨1, [], []⟩, ⟨1, [], []⟩))
        [⟨"a".toList, "p".toList, "u".toList, []⟩] = .error .gitFailed :=
  ⟨(spec_c4.1 _ _).1 rfl,
   (spec_c4.1 _ _).2.1 (by decide) rfl,
   (spec_c4.1 _ _).2.2 (by decide) (by decide),
   spec_c4.2 _ _ ⟨⟨"a".toList, "p".toList, "u".toList, []⟩,
     List.mem_singleton.mpr rfl, by decide, by decide⟩⟩

/-- C10: the development-scope test of `main` is a plain substring test of
the dependency name against the whole `development-deps` input, not
membership among its comma-separated entries: any name occurring anywhere
inside the input is scoped development.  Concretely, a dependency named
`dep` is scoped development under input `dep-a`, although `dep` is not one
of the input's comma-separated entries. -/
theorem spec_c10 :
    (∀ devInput pre post nm : JStr, devInput = pre ++ (nm ++ post) →
        scopeFor devInput nm = .development) ∧
    ("dep".toList ∉ jsplitc ',' "dep-a".toList) ∧
    mainScopes "dep-a".toList
        [⟨"dep".toList, "libs/dep".toList,
          "https://github.com/org/dep.git".toList, "v1".toList⟩] =
      .ok [(⟨"github".toList, "org".toList, "dep".toList, "v1".toList⟩,
            .development)] := by
  refine ⟨?_, by decide, by decide⟩
  intro devInput pre post nm h
  subst h
  simp [scopeFor, jincludes_of_append]

/-- C10 witness: the substring rule applied at a concrete input where the
name sits strictly inside the input string. -/
theorem spec_c10_witness : scopeFor "xdepy".toList "dep".toList = .development :=
  spec_c10.1 "xdepy".toList "x".toList "y".toList "dep".toList (by decide)

/-! ### The index-preserving tag write-back (C6) -/

theorem assignTags_go (tags : List JStr) :
    ∀ (done rest : List GitSubmodule), rest.length = tags.length →
      (List.enumFrom done.length tags).foldl
          (fun acc it =>
            match acc[it.1]? with
            | some s => acc.set it.1 { s with tag := it.2 }
            | none => acc)
          (done ++ rest)
        = done ++ List.zipWith (fun s t => { s with tag := t }) rest tags := by
  induction tags with
  | nil =>
    intro done rest h
    rw [List.eq_nil_of_length_eq_zero h]
    simp
  | cons t ts ih =>
    intro done rest h
    cases rest with
    | nil => simp at h
    | cons r rs =>
      rw [List.enumFrom_cons, List.foldl_cons]
      have hget : (done ++ r :: rs)[done.length]? = some r := by
        rw [List.getElem?_append_right (Nat.le_refl _)]
        simp
      have hset : (done ++ r :: rs).set done.length { r with tag := t }
          = done ++ { r with tag := t } :: rs := by
        rw [List.set_append, if_neg (by omega)]
        simp
      dsimp only
      rw [hget]
      dsimp only
      rw [hset]
      have hlen : (done ++ [{ r with tag := t }]).length = done.length + 1 := by
        simp
      have happ : done ++ { r with tag := t } :: rs
          = (done ++ [{ r with tag := t }]) ++ rs := by
        simp
      have hrec := ih (done ++ [{ r with tag := t }]) rs (by simpa using h)
      rw [hlen] at hrec
      rw [happ, hrec]
      simp

/-- C6: the resolved versions are written back into the original record
sequence by matching index — `assignTags` (the `tags.forEach((tag, index)
=> submodules[index].tag = tag)` loop) equals the positional `zipWith` that
puts the i-th tag into the i-th record, so order is preserved, lengths
agree, and the i-th output record is exactly the i-th input record with its
`tag` replaced by the i-th resolution result. -/
theorem spec_c6 : ∀ (subs : List GitSubmodule) (tags : List JStr),
    subs.length = tags.length →
    assignTags subs tags
        = List.zipWith (fun s t => { s with tag := t }) subs tags ∧
    (assignTags subs tags).length = subs.length ∧
    ∀ (i : Nat) (hi : i < subs.length) (ht : i < tags.length)
        (ho : i < (assignTags subs tags).length),
      (assignTags subs tags)[i] = { subs[i] with tag := tags[i] } := by
  intro subs tags h
  have key : assignTags subs tags
      = List.zipWith (fun s t => { s with tag := t }) subs tags := by
    have hgo := assignTags_go tags [] subs h
    simpa [assignTags, List.enum_eq_enumFrom] using hgo
  refine ⟨key, ?_, ?_⟩
  · rw [key, List.length_zipWith]
    omega
  · intro i hi ht ho
    simp only [key]
    exact List.getElem_zipWith

/-! ### The PURL list, the module cache and the main loop (C1, C8) -/

theorem exceptMapM_cons {α β : Type} (f : α → Except DepError β) (a : α) (l : List α) :
    (a :: l).mapM f =
      match f a with
      | .error e => .error e
      | .ok b =>
        match l.mapM f with
        | .error e => .error e
        | .ok bs => .ok (b :: bs) := by
  rw [List.mapM_cons]
  cases f a with
  | error e => rfl
  | ok b =>
    cases l.mapM f with
    | error e => rfl
    | ok bs => rfl

theorem cacheFold_cons (c0 : PackageCache) (a : GitSubmodule) (l : List GitSubmodule) :
    List.foldlM (fun cache s => (processSubmodule s).map (cachePackage cache)) c0 (a :: l) =
      match processSubmodule a with
      | .error e => .error e
      | .ok p =>
        List.foldlM (fun cache s => (processSubmodule s).map (cachePackage cache))
          (cachePackage c0 p) l := by
  rw [List.foldlM_cons]
  cases processSubmodule a with
  | error e => rfl
  | ok p => rfl

theorem mapM_error_mem {α β : Type} (f : α → Except DepError β) :
    ∀ (l : List α) (e : DepError), l.mapM f = .error e → ∃ a ∈ l, f a = .error e := by
  intro l
  induction l with
  | nil =>
    intro e h
    rw [List.mapM_nil] at h
    cases h
  | cons a as ih =>
    intro e h
    rw [exceptMapM_cons] at h
    cases hfa : f a with
    | error e' =>
      rw [hfa] at h
      cases h
      exact ⟨a, List.mem_cons_self a as, hfa⟩
    | ok b =>
      rw [hfa] at h
      cases hm : as.mapM f with
      | error e' =>
        rw [hm] at h
        cases h
        obtain ⟨x, hx, hfx⟩ := ih e hm
        exact ⟨x, List.mem_cons_of_mem a hx, hfx⟩
      | ok bs =>
        rw [hm] at h
        cases h

theorem processSubmodule_ne_assert (s : GitSubmodule) :
    processSubmodule s ≠ .error .assertionFailed := by
  simp only [processSubmodule, mkPackageURL]
  split
  · simp
  · split
    · simp
    · split
      · simp
      · split <;> simp

theorem lookupPackage_eq_self {cache : PackageCache} {p q : PackageURL}
    (h : lookupPackage cache p = some q) : q = p ∧ q ∈ cache := by
  rw [lookupPackage] at h
  have h1 := List.find?_some h
  simp only [decide_eq_true_eq] at h1
  exact ⟨h1, List.mem_of_find?_eq_some h⟩

theorem mem_cachePackage_self (c : PackageCache) (p : PackageURL) :
    p ∈ cachePackage c p := by
  unfold cachePackage
  cases hl : lookupPackage c p with
  | none => exact List.mem_append.mpr (Or.inr (List.mem_singleton.mpr rfl))
  | some q =>
    obtain ⟨hq, hmem⟩ := lookupPackage_eq_self hl
    exact hq ▸ hmem

theorem mem_cachePackage_mono {c : PackageCache} {q : PackageURL} (p : PackageURL)
    (h : q ∈ c) : q ∈ cachePackage c p := by
  unfold cachePackage
  cases hl : lookupPackage c p with
  | none => exact List.mem_append.mpr (Or.inl h)
  | some _ => exact h

theorem lookupPackage_isSome {cache : PackageCache} {p : PackageURL} (h : p ∈ cache) :
    (lookupPackage cache p).isSome = true := by
  unfold lookupPackage
  rw [List.find?_isSome]
  exact ⟨p, h, by simp⟩

theorem cacheFold_complete :
    ∀ (subs : List GitSubmodule) (purls : List PackageURL) (c0 : PackageCache),
      subs.mapM processSubmodule = .ok purls →
      ∃ cache,
        List.foldlM (fun cache s => (processSubmodule s).map (cachePackage cache))
            c0 subs = .ok cache ∧
        (∀ q ∈ c0, q ∈ cache) ∧ (∀ p ∈ purls, p ∈ cache) := by
  intro subs
  induction subs with
  | nil =>
    intro purls c0 h
    rw [List.mapM_nil] at h
    cases h
    exact ⟨c0, rfl, fun q hq => hq, by intro p hp; cases hp⟩
  | cons a as ih =>
    intro purls c0 h
    rw [exceptMapM_cons] at h
    cases hp : processSubmodule a with
    | error e => rw [hp] at h; cases h
    | ok p =>
      rw [hp] at h
      cases hm : as.mapM processSubmodule with
      | error e => rw [hm] at h; cases h
      | ok ps =>
        rw [hm] at h
        cases h
        obtain ⟨cache, hfold, hmono, hps⟩ := ih ps (cachePackage c0 p) hm
        refine ⟨cache, ?_, ?_, ?_⟩
        · rw [cacheFold_cons, hp]
          exact hfold
        · intro q hq
          exact hmono q (mem_cachePackage_mono p hq)
        · intro q hq
          rcases List.mem_cons.mp hq with rfl | hq
          · exact hmono q (mem_cachePackage_self c0 q)
          · exact hps q hq

theorem scopeMapM_ok (devDeps : JStr) (cache : PackageCache) :
    ∀ purls : List PackageURL,
      (∀ p ∈ purls, (lookupPackage cache p).isSome = true) →
      ∃ l, purls.mapM (fun purl =>
          match lookupPackage cache purl with
          | none => Except.error DepError.assertionFailed
          | some dep => pure (purl, scopeFor devDeps dep.name)) = .ok l ∧
        ∀ pr ∈ l, ∃ purl ∈ purls,
          pr = (purl, scopeFor devDeps purl.name) := by
  intro purls
  induction purls with
  | nil => exact fun _ => ⟨[], rfl, by intro pr hpr; cases hpr⟩
  | cons p ps ih =>
    intro h
    obtain ⟨l, hl, hprs⟩ := ih (fun q hq => h q (List.mem_cons_of_mem _ hq))
    cases hlook : lookupPackage cache p with
    | none =>
      have hs := h p (List.mem_cons_self p ps)
      rw [hlook] at hs
      cases hs
    | some dep =>
      obtain ⟨hdep, -⟩ := lookupPackage_eq_self hlook
      refine ⟨(p, scopeFor devDeps dep.name) :: l, ?_, ?_⟩
      · rw [exceptMapM_cons]
        simp only [hlook, hl]
        rfl
      · intro pr hpr
        rcases List.mem_cons.mp hpr with rfl | hpr
        · exact ⟨p, List.mem_cons_self p ps, by rw [hdep]⟩
        · obtain ⟨purl, hpurl, hpr⟩ := hprs pr hpr
          exact ⟨purl, List.mem_cons_of_mem _ hpurl, hpr⟩

/-- C1: PURL generation and cache construction from the same record list
never diverge — whenever `processSubmoduleUrls` and `processSubmoduleCache`
both succeed on the same list, looking up each generated PURL in the cache
succeeds; consequently `main`'s `assertion failed` branch is unreachable:
for no record list (and no `development-deps` input) does the main loop
produce the assertion-failure error. -/
theorem spec_c1 : ∀ (developmentDeps : JStr) (subs : List GitSubmodule),
    (∀ purls cache, processSubmoduleUrls subs = .ok purls →
        processSubmoduleCache subs = .ok cache →
        ∀ p ∈ purls, (lookupPackage cache p).isSome = true) ∧
    mainScopes developmentDeps subs ≠ .error .assertionFailed := by
  intro devDeps subs
  constructor
  · intro purls cache hu hc p hp
    obtain ⟨cache', hfold, -, hmem⟩ := cacheFold_complete subs purls [] hu
    rw [processSubmoduleCache] at hc
    rw [hfold] at hc
    cases hc
    exact lookupPackage_isSome (hmem p hp)
  · cases hu : processSubmoduleUrls subs with
    | error e =>
      have he : e ≠ .assertionFailed := by
        obtain ⟨a, -, ha⟩ := mapM_error_mem processSubmodule subs e hu
        intro hcontra
        exact processSubmodule_ne_assert a (hcontra ▸ ha)
      have hme : mainScopes devDeps subs = Except.error e := by
        rw [mainScopes, hu]
        rfl
      rw [hme]
      intro hcontra
      injection hcontra with h'
      exact he h'
    | ok purls =>
      obtain ⟨cache, hfold, -, hmem⟩ := cacheFold_complete subs purls [] hu
      obtain ⟨l, hmapm, -⟩ :=
        scopeMapM_ok devDeps cache purls (fun p hp => lookupPackage_isSome (hmem p hp))
      have hok : mainScopes devDeps subs = .ok l := by
        rw [mainScopes, hu]
        show (processSubmoduleCache subs).bind _ = _
        rw [processSubmoduleCache, hfold]
        exact hmapm
      rw [hok]
      intro hcontra
      cases hcontra

/-- C1 witness: the lookup guarantee applied to a concrete two-record list
on which PURL generation and cache construction both succeed. -/
theorem spec_c1_witness :
    (lookupPackage
        (cachePackage (cachePackage []
            ⟨"github".toList, "org".toList, "dep-a".toList, "v1".toList⟩)
          ⟨"github".toList, "org".toList, "dep-b".toList, "v2".toList⟩)
        ⟨"github".toList, "org".toList, "dep-a".toList, "v1".toList⟩).isSome = true :=
  (spec_c1 "".toList
      [⟨"dep-a".toList, "libs/dep-a".toList,
        "https://github.com/org/dep-a.git".toList, "v1".toList⟩,
       ⟨"dep-b".toList, "libs/dep-b".toList,
        "https://github.com/org/dep-b.git".toList, "v2".toList⟩]).1
    [⟨"github".toList, "org".toList, "dep-a".toList, "v1".toList⟩,
     ⟨"github".toList, "org".toList, "dep-b".toList, "v2".toList⟩]
    (cachePackage (cachePackage []
        ⟨"github".toList, "org".toList, "dep-a".toList, "v1".toList⟩)
      ⟨"github".toList, "org".toList, "dep-b".toList, "v2".toList⟩)
    (by decide) (by decide)
    ⟨"github".toList, "org".toList, "dep-a".toList, "v1".toList⟩ (by decide)

/-- C8: in the dependency listing assembled by `main`, a dependency whose
coordinate name is contained (as a substring) in the `development-deps`
input is scoped `development`, and every other dependency is scoped
`runtime`. -/
theorem spec_c8 : ∀ (developmentDeps : JStr) (subs : List GitSubmodule)
    (l : List (PackageURL × DependencyScope)),
    mainScopes developmentDeps subs = .ok l →
    ∀ pr ∈ l,
      (jincludes developmentDeps pr.1.name = true → pr.2 = .development) ∧
      (jincludes developmentDeps pr.1.name = false → pr.2 = .runtime) := by
  intro devDeps subs l hok pr hpr
  cases hu : processSubmoduleUrls subs with
  | error e =>
    have : mainScopes devDeps subs = Except.error e := by
      rw [mainScopes, hu]
      rfl
    rw [this] at hok
    cases hok
  | ok purls =>
    obtain ⟨cache, hfold, -, hmem⟩ := cacheFold_complete subs purls [] hu
    obtain ⟨l', hmapm, hchar⟩ :=
      scopeMapM_ok devDeps cache purls (fun p hp => lookupPackage_isSome (hmem p hp))
    have hok' : mainScopes devDeps subs = .ok l' := by
      rw [mainScopes, hu]
      show (processSubmoduleCache subs).bind _ = _
      rw [processSubmoduleCache, hfold]
      exact hmapm
    rw [hok'] at hok
    cases hok
    obtain ⟨purl, -, hpr'⟩ := hchar pr hpr
    subst hpr'
    constructor
    · intro hinc
      simp [scopeFor, hinc]
    · intro hinc
      simp [scopeFor, hinc]

/-- C8 witness: the scope rule applied to the concrete run of the spec's
example — input `dep-a` marks dependency `dep-a` development and leaves
`dep-b` runtime. -/
theorem spec_c8_witness :
    ((⟨"github".toList, "org".toList, "dep-a".toList, "v1".toList⟩, .development)
        : PackageURL × DependencyScope).2 = .development ∧
    ((⟨"github".toList, "org".toList, "dep-b".toList, "v2".toList⟩, .runtime)
        : PackageURL × DependencyScope).2 = .runtime :=
  ⟨(spec_c8 "dep-a".toList
      [⟨"dep-a".toList, "libs/dep-a".toList,
        "https://github.com/org/dep-a.git".toList, "v1".toList⟩,
       ⟨"dep-b".toList, "libs/dep-b".toList,
        "https://github.com/org/dep-b.git".toList, "v2".toList⟩]
      [(⟨"github".toList, "org".toList, "dep-a".toList, "v1".toList⟩, .development),
       (⟨"github".toList, "org".toList, "dep-b".toList, "v2".toList⟩, .runtime)]
      (by decide) _ (by decide)).1 (by decide),
   (spec_c8 "dep-a".toList
      [⟨"dep-a".toList, "libs/dep-a".toList,
        "https://github.com/org/dep-a.git".toList, "v1".toList⟩,
       ⟨"dep-b".toList, "libs/dep-b".toList,
        "https://github.com/org/dep-b.git".toList, "v2".toList⟩]
      [(⟨"github".toList, "org".toList, "dep-a".toList, "v1".toList⟩, .development),
       (⟨"github".toList, "org".toList, "dep-b".toList, "v2".toList⟩, .runtime)]
      (by decide) _ (by decide)).2 (by decide)⟩

/-! ### Manifest lookup errors (C7) and coordinate derivation (C5) -/

theorem resolveAllTags_error {git : JStr → ExecOutput × ExecOutput}
    {subs : List GitSubmodule} {e : DepError}
    (h : resolveAllTags git subs = .error e) : e = .gitFailed := by
  rw [resolveAllTags] at h
  obtain ⟨s, -, hs⟩ := mapM_error_mem _ subs e h
  exact processSubmoduleTag_error hs

theorem parseManifest_notFound_iff (git : JStr → ExecOutput × ExecOutput)
    (fs : JStr → Option JStr) (p : JStr) :
    parseSubmoduleManifest git fs p = .error .manifestNotFound ↔
      basename (pathNormalize p) ≠ gitmodulesName ∨ fs (pathNormalize p) = none := by
  simp only [parseSubmoduleManifest]
  by_cases hcond : basename (pathNormalize p) ≠ gitmodulesName ∨ fs (pathNormalize p) = none
  · rw [if_pos hcond]
    simp [hcond]
  · rw [if_neg hcond]
    constructor
    · intro hmap
      cases hres : resolveAllTags git
          (parseManifestLines (jsplitc '\n' ((fs (pathNormalize p)).getD []))) with
      | error e =>
        rw [hres] at hmap
        have : e = .gitFailed := resolveAllTags_error hres
        subst this
        cases hmap
      | ok l =>
        rw [hres] at hmap
        cases hmap
    · intro hc
      exact absurd hc hcond

/-- C7: `parseSubmoduleManifest` fails with the manifest-not-found error
exactly when the (normalized) path's base name is not `.gitmodules` or no
file exists there; and that outcome is decided before any content is read:
it depends only on the existence of the file, not on its contents. -/
theorem spec_c7 : ∀ (git : JStr → ExecOutput × ExecOutput)
    (fs : JStr → Option JStr) (p : JStr),
    (parseSubmoduleManifest git fs p = .error .manifestNotFound ↔
      basename (pathNormalize p) ≠ gitmodulesName ∨ fs (pathNormalize p) = none) ∧
    (∀ fs' : JStr → Option JStr,
      (fs (pathNormalize p)).isSome = (fs' (pathNormalize p)).isSome →
      (parseSubmoduleManifest git fs p = .error .manifestNotFound ↔
        parseSubmoduleManifest git fs' p = .error .manifestNotFound)) := by
  intro git fs p
  refine ⟨parseManifest_notFound_iff git fs p, ?_⟩
  intro fs' hsame
  rw [parseManifest_notFound_iff, parseManifest_notFound_iff]
  cases hfs : fs (pathNormalize p) <;> cases hfs' : fs' (pathNormalize p) <;>
    rw [hfs, hfs'] at hsame <;> simp_all

/-- C7 witness: a misnamed path is rejected, and the rejection of a
present `.gitmodules` file does not depend on the file's contents. -/
theorem spec_c7_witness :
    parseSubmoduleManifest (fun _ => (⟨0, [], []⟩, ⟨0, [], []⟩)) (fun _ => none)
        "foo.txt".toList = .error .manifestNotFound ∧
    (parseSubmoduleManifest (fun _ => (⟨0, [], []⟩, ⟨0, [], []⟩))
        (fun _ => some "abc".toList) "sub/.gitmodules".toList
          = .error .manifestNotFound ↔
      parseSubmoduleManifest (fun _ => (⟨0, [], []⟩, ⟨0, [], []⟩))
        (fun _ => some "other contents".toList) "sub/.gitmodules".toList
          = .error .manifestNotFound) :=
  ⟨(spec_c7 (fun _ => (⟨0, [], []⟩, ⟨0, [], []⟩)) (fun _ => none)
      "foo.txt".toList).1.mpr (Or.inl (by decide)),
   (spec_c7 (fun _ => (⟨0, [], []⟩, ⟨0, [], []⟩)) (fun _ => some "abc".toList)
      "sub/.gitmodules".toList).2 (fun _ => some "other contents".toList) rfl⟩

/-- C5 (amended): for a complete record whose url has at least five
`/`-separated segments *and whose derived repository name (segment 4 up to
its first `.`) is non-empty*, `processSubmodule` derives the coordinate
positionally — segment 2 is the hosting domain (kept only up to its first
`.` in the output type), segment 3 the namespace, segment 4 (up to its
first `.`) the name, the record's tag the version — and fails with
`UnsupportedHost` exactly when segment 2 is not `github.com`.  When the
derived name is empty and the hosting domain is `github.com`, the
packageurl-js constructor's required-field validation throws instead of
yielding a coordinate (see `spec_c5_counterexample`).  In particular, url
`https://github.com/org/dep-a.git` with tag `v1.2.3` yields the PURL
`{type: github, namespace: org, name: dep-a, version: v1.2.3}`. -/
theorem spec_c5 :
    (∀ s : GitSubmodule, s.name ≠ [] → s.path ≠ [] → s.url ≠ [] → s.tag ≠ [] →
      5 ≤ (jsplitc '/' s.url).length →
      (jsplitc '.' ((jsplitc '/' s.url).getD 4 [])).getD 0 [] ≠ [] →
      processSubmodule s =
        if (jsplitc '/' s.url).getD 2 [] = githubHost then
          .ok ⟨(jsplitc '.' ((jsplitc '/' s.url).getD 2 [])).getD 0 [],
               (jsplitc '/' s.url).getD 3 [],
               (jsplitc '.' ((jsplitc '/' s.url).getD 4 [])).getD 0 [],
               s.tag⟩
        else .error .unsupportedHost) ∧
    (∀ s : GitSubmodule, s.name ≠ [] → s.path ≠ [] → s.url ≠ [] → s.tag ≠ [] →
      5 ≤ (jsplitc '/' s.url).length →
      (jsplitc '/' s.url).getD 2 [] = githubHost →
      (jsplitc '.' ((jsplitc '/' s.url).getD 4 [])).getD 0 [] = [] →
      processSubmodule s = .error .invalidPurl) ∧
    processSubmodule ⟨"dep-a".toList, "libs/dep-a".toList,
        "https://github.com/org/dep-a.git".toList, "v1.2.3".toList⟩ =
      .ok ⟨"github".toList, "org".toList, "dep-a".toList, "v1.2.3".toList⟩ := by
  refine ⟨?_, ?_, by decide⟩
  · intro s h1 h2 h3 h4 hlen hname
    have e2 := List.getElem?_eq_getElem (l := jsplitc '/' s.url) (n := 2) (by omega)
    have e3 := List.getElem?_eq_getElem (l := jsplitc '/' s.url) (n := 3) (by omega)
    have e4 := List.getElem?_eq_getElem (l := jsplitc '/' s.url) (n := 4) (by omega)
    simp only [List.getD_eq_getElem?_getD, e4, Option.getD_some] at hname
    simp only [processSubmodule]
    rw [if_neg (by simp [h1, h2, h3, h4])]
    rw [e4]
    dsimp only
    simp only [List.getD_eq_getElem?_getD, e2, e3, e4, Option.getD_some]
    by_cases hA : (jsplitc '/' s.url)[2] = githubHost
    · rw [if_neg (by simp [hA]), if_pos hA]
      simp only [mkPackageURL]
      split
      next hcon =>
        exfalso
        rcases hcon with hcon | hcon
        · rw [hA] at hcon
          revert hcon
          decide
        · exact hname hcon
      next => rfl
    · rw [if_pos hA, if_neg hA]
  · intro s h1 h2 h3 h4 hlen hhost hname0
    have e2 := List.getElem?_eq_getElem (l := jsplitc '/' s.url) (n := 2) (by omega)
    have e4 := List.getElem?_eq_getElem (l := jsplitc '/' s.url) (n := 4) (by omega)
    simp only [List.getD_eq_getElem?_getD, e2, Option.getD_some] at hhost
    simp only [List.getD_eq_getElem?_getD, e4, Option.getD_some] at hname0
    simp only [processSubmodule]
    rw [if_neg (by simp [h1, h2, h3, h4])]
    rw [e4]
    dsimp only
    simp only [List.getD_eq_getElem?_getD, e2, e4, Option.getD_some]
    rw [if_neg (by simp [hhost])]
    simp only [mkPackageURL]
    rw [if_pos (Or.inr hname0)]

/-- C5 counterexample: a complete record whose url splits into five
segments with hosting domain `github.com` but an empty derived repository
name (`https://github.com/org/.git` — segment 4 is `.git`, whose part
before the first `.` is empty).  The original claim says this record yields
the positionally derived coordinate, but the program throws from the
PackageURL constructor: the result is neither a coordinate nor
`UnsupportedHost`. -/
theorem spec_c5_counterexample :
    ("m".toList ≠ ([] : JStr) ∧ "p".toList ≠ ([] : JStr) ∧
      "https://github.com/org/.git".toList ≠ ([] : JStr) ∧
      "v1".toList ≠ ([] : JStr)) ∧
    (jsplitc '/' "https://github.com/org/.git".toList).length = 5 ∧
    (jsplitc '/' "https://github.com/org/.git".toList).getD 2 [] = githubHost ∧
    processSubmodule ⟨"m".toList, "p".toList,
        "https://github.com/org/.git".toList, "v1".toList⟩ =
      .error .invalidPurl := by
  decide

/-- C5 witness: the derivation rule applied to a complete record with a
non-`github.com` hosting domain and five url segments, and the
constructor-rejection rule applied to a `github.com` url with an empty
derived name. -/
theorem spec_c5_witness :
    (processSubmodule ⟨"m".toList, "p".toList,
        "https://gitlab.com/org/x.git".toList, "v1".toList⟩ =
      if (jsplitc '/' "https://gitlab.com/org/x.git".toList).getD 2 [] = githubHost then
        .ok ⟨(jsplitc '.' ((jsplitc '/' "https://gitlab.com/org/x.git".toList).getD 2 [])).getD 0 [],
             (jsplitc '/' "https://gitlab.com/org/x.git".toList).getD 3 [],
             (jsplitc '.' ((jsplitc '/' "https://gitlab.com/org/x.git".toList).getD 4 [])).getD 0 [],
             "v1".toList⟩
      else .error .unsupportedHost) ∧
    processSubmodule ⟨"m2".toList, "p2".toList,
        "https://github.com/org2/.git".toList, "v2".toList⟩ = .error .invalidPurl :=
  ⟨spec_c5.1 ⟨"m".toList, "p".toList, "https://gitlab.com/org/x.git".toList, "v1".toList⟩
      (by decide) (by decide) (by decide) (by decide) (by decide) (by decide),
   spec_c5.2.1 ⟨"m2".toList, "p2".toList, "https://github.com/org2/.git".toList, "v2".toList⟩
      (by decide) (by decide) (by decide) (by decide) (by decide) (by decide) (by decide)⟩

/-! ### Parsing well-formed manifests (C3) -/

theorem headerLine_decomp (n : JStr) :
    headerLine n = "[submodule ".toList ++ '"' :: (n ++ '"' :: [']']) := by
  have h1 : "[submodule \"".toList = "[submodule ".toList ++ ['"'] := by decide
  have h2 : "\"]".toList = '"' :: [']'] := by decide
  simp [headerLine, h1, h2]

theorem scanField_header {n : JStr} (hq : '"' ∉ n) :
    scanField emptySubmodule (headerLine n) = ⟨n, [], [], []⟩ := by
  have hinc : jincludes (headerLine n) submodulePat = true := by
    have hd : headerLine n = ['['] ++ (submodulePat ++ (n ++ "\"]".toList)) := by
      have h1 : "[submodule \"".toList = ['['] ++ submodulePat := by decide
      simp [headerLine, h1, submodulePat]
    rw [hd]
    exact jincludes_of_append _ _ _
  have hsplit : jsplitc '"' (headerLine n) = ["[submodule ".toList, n, [']']] := by
    rw [headerLine_decomp,
      jsplitc_append _ (by decide),
      jsplitc_append _ hq,
      jsplitc_of_not_mem (by decide)]
  unfold scanField
  rw [if_pos ⟨rfl, hinc⟩, hsplit]
  rfl

theorem parseLine_header (recs : List GitSubmodule) {n : JStr} (hq : '"' ∉ n) :
    parseLine (recs, emptySubmodule) (headerLine n) = (recs, ⟨n, [], [], []⟩) := by
  simp only [parseLine]
  rw [scanField_header hq]
  rw [if_neg (fun h => h.2.1 rfl)]

theorem pathLine_decomp (p : JStr) :
    pathLine p = "\tpath ".toList ++ '=' :: (' ' :: p) := by
  have h1 : "\tpath = ".toList = "\tpath ".toList ++ '=' :: [' '] := by decide
  simp [pathLine, h1]

theorem scanField_path {n p : JStr} (hn : n ≠ []) (hpe : '=' ∉ p) :
    scanField ⟨n, [], [], []⟩ (pathLine p) = ⟨n, jtrim p, [], []⟩ := by
  have hinc : jincludes (pathLine p) pathPat = true := by
    have hd : pathLine p = ['\t'] ++ (pathPat ++ (' ' :: p)) := by
      have h1 : "\tpath = ".toList = ['\t'] ++ pathPat ++ [' '] := by decide
      simp [pathLine, h1, pathPat]
    rw [hd]
    exact jincludes_of_append _ _ _
  have hsp : '=' ∉ ' ' :: p := by
    intro hc
    rcases List.mem_cons.mp hc with hc | hc
    · cases hc
    · exact hpe hc
  have hsplit : jsplitc '=' (pathLine p) = ["\tpath ".toList, ' ' :: p] := by
    rw [pathLine_decomp, jsplitc_append _ (by decide), jsplitc_of_not_mem hsp]
  unfold scanField
  rw [if_neg (fun h => hn h.1), if_pos ⟨rfl, hinc⟩, hsplit]
  show (⟨n, jtrim (' ' :: p), [], []⟩ : GitSubmodule) = _
  rw [jtrim_cons_space]

theorem parseLine_path (recs : List GitSubmodule) {n p : JStr}
    (hn : n ≠ []) (hpe : '=' ∉ p) :
    parseLine (recs, ⟨n, [], [], []⟩) (pathLine p) = (recs, ⟨n, jtrim p, [], []⟩) := by
  simp only [parseLine]
  rw [scanField_path hn hpe]
  rw [if_neg (fun h => h.2.2 rfl)]

theorem urlLine_decomp (u : JStr) :
    urlLine u = "\turl ".toList ++ '=' :: (' ' :: u) := by
  have h1 : "\turl = ".toList = "\turl ".toList ++ '=' :: [' '] := by decide
  simp [urlLine, h1]

theorem scanField_url {n p u : JStr} (hn : n ≠ []) (htp : jtrim p ≠ [])
    (hue : '=' ∉ u) :
    scanField ⟨n, jtrim p, [], []⟩ (urlLine u) = ⟨n, jtrim p, jtrim u, []⟩ := by
  have hinc : jincludes (urlLine u) urlPat = true := by
    have hd : urlLine u = ['\t'] ++ (urlPat ++ (' ' :: u)) := by
      have h1 : "\turl = ".toList = ['\t'] ++ urlPat ++ [' '] := by decide
      simp [urlLine, h1, urlPat]
    rw [hd]
    exact jincludes_of_append _ _ _
  have hsu : '=' ∉ ' ' :: u := by
    intro hc
    rcases List.mem_cons.mp hc with hc | hc
    · cases hc
    · exact hue hc
  have hsplit : jsplitc '=' (urlLine u) = ["\turl ".toList, ' ' :: u] := by
    rw [urlLine_decomp, jsplitc_append _ (by decide), jsplitc_of_not_mem hsu]
  unfold scanField
  rw [if_neg (fun h => hn h.1), if_neg (fun h => htp h.1), if_pos ⟨rfl, hinc⟩, hsplit]
  show (⟨n, jtrim p, jtrim (' ' :: u), []⟩ : GitSubmodule) = _
  rw [jtrim_cons_space]

theorem parseLine_url (recs : List GitSubmodule) {n p u : JStr}
    (hn : n ≠ []) (htp : jtrim p ≠ []) (hue : '=' ∉ u) (htu : jtrim u ≠ []) :
    parseLine (recs, ⟨n, jtrim p, [], []⟩) (urlLine u)
      = (recs ++ [⟨n, jtrim p, jtrim u, []⟩], emptySubmodule) := by
  simp only [parseLine]
  rw [scanField_url hn htp hue]
  rw [if_pos ⟨hn, htp, htu⟩]

theorem foldl_section {sec : ManifestSection} (hwf : WellFormedSection sec)
    (recs : List GitSubmodule) (rest : List JStr) :
    List.foldl parseLine (recs, emptySubmodule) (sectionLines sec ++ rest)
      = List.foldl parseLine (recs ++ [sectionRecord sec], emptySubmodule) rest := by
  obtain ⟨hn, hq, hpe, htp, hue, htu⟩ := hwf
  simp only [sectionLines, List.cons_append, List.nil_append, List.foldl_cons]
  rw [parseLine_header recs hq, parseLine_path recs hn hpe,
    parseLine_url recs hn htp hue htu]
  rfl

theorem parse_sections (secs : List ManifestSection) :
    (∀ sec ∈ secs, WellFormedSection sec) →
    ∀ recs : List GitSubmodule,
      List.foldl parseLine (recs, emptySubmodule) (secs.flatMap sectionLines)
        = (recs ++ secs.map sectionRecord, emptySubmodule) := by
  induction secs with
  | nil =>
    intro _ recs
    simp
  | cons sec rest ih =>
    intro hwf recs
    rw [List.flatMap_cons, foldl_section (hwf sec (List.mem_cons_self sec rest)) recs]
    rw [ih (fun s hs => hwf s (List.mem_cons_of_mem _ hs)) (recs ++ [sectionRecord sec])]
    simp

/-- C3: a well-formed manifest of N complete sections (quoted name,
`path =` line, `url =` line per section) parses to exactly N records, in
file order, the i-th being the i-th section's name with its path and url
values trimmed of surrounding whitespace; in particular every record has
non-empty name, path and url. -/
theorem spec_c3 : ∀ secs : List ManifestSection,
    (∀ sec ∈ secs, WellFormedSection sec) →
    parseManifestLines (secs.flatMap sectionLines) = secs.map sectionRecord ∧
    (parseManifestLines (secs.flatMap sectionLines)).length = secs.length ∧
    ∀ r ∈ parseManifestLines (secs.flatMap sectionLines),
      r.name ≠ [] ∧ r.path ≠ [] ∧ r.url ≠ [] := by
  intro secs hwf
  have key : parseManifestLines (secs.flatMap sectionLines) = secs.map sectionRecord := by
    rw [parseManifestLines, parse_sections secs hwf []]
    simp
  refine ⟨key, by rw [key]; simp, ?_⟩
  exact parseFold_complete (secs.flatMap sectionLines) ([], emptySubmodule)
    (by intro r hr; cases hr)

/-- C3 witness: a two-section manifest, with whitespace around the first
section's values, parses to the two expected trimmed records. -/
theorem spec_c3_witness :
    parseManifestLines
        ([⟨"dep-a".toList, " libs/dep-a ".toList,
           " https://github.com/org/dep-a.git".toList⟩,
          ⟨"dep-b".toList, "libs/dep-b".toList,
           "https://github.com/org/dep-b.git".toList⟩].flatMap sectionLines)
      = [⟨"dep-a".toList, " libs/dep-a ".toList,
          " https://github.com/org/dep-a.git".toList⟩,
         ⟨"dep-b".toList, "libs/dep-b".toList,
          "https://github.com/org/dep-b.git".toList⟩].map sectionRecord :=
  (spec_c3 _ (by decide)).1

/-- C6 witness: the write-back at a concrete two-element record list. -/
theorem spec_c6_witness :
    assignTags
        [⟨"a".toList, "pa".toList, "ua".toList, []⟩,
         ⟨"b".toList, "pb".toList, "ub".toList, []⟩]
        ["t1".toList, "t2".toList]
      = List.zipWith (fun (s : GitSubmodule) (t : JStr) => { s with tag := t })
          [⟨"a".toList, "pa".toList, "ua".toList, []⟩,
           ⟨"b".toList, "pb".toList, "ub".toList, []⟩]
          ["t1".toList, "t2".toList] :=
  (spec_c6 _ _ (by decide)).1
